import Mathlib

/-!
# Verification of the dcstats enrichment pipeline (src/visualizer.py)

This file gives a shallow embedding of the three core functions of
`src/visualizer.py`:

* `flatten_json`  — recursive flattening of a nested JSON-like value into a
  single-level mapping from path strings to scalar leaves;
* `fetch_data`    — the per-feature HTTP fetch with bounded retry on 429;
* `process_and_update_geojson` — the orchestrator that fans out one fetch per
  feature, merges flattened results into the feature properties in completion
  order, and reports progress.

Modelling conventions:

* Python dictionaries that are used as ordered key/value maps (JSON objects,
  feature property mappings, the `out` accumulator of `flatten_json`) are
  modelled as association lists `List (String × α)` together with the Python
  assignment semantics `d[k] = v` (`dictAssign`): an existing key is
  overwritten in place, a new key is appended at the end.
* Network effects are modelled by a function `post : Nat → PostResult` giving
  the response (status code and decoded body) or a raised transport exception
  for each attempt, and the orchestrator is parametrised by the per-feature
  fetch result together with the completion order of the concurrent tasks
  (the order in which `as_completed` yields the futures).
* Python float arithmetic on `progress_value` is modelled as IEEE-754
  binary64 arithmetic: every float value is represented exactly as a
  rational, and each operation (the division `1/total_features`, each
  `+=` of the increment, and the multiplication by 100) applies `roundD`,
  the correctly rounded (nearest, ties to even) binary64 value of the exact
  rational result, with the subnormal quantum clamp at `2^(-1074)`
  (overflow is not modelled; all values here stay below 102).  Python
  `int()` applied to the nonnegative `progress_value * 100` is truncation
  toward zero, i.e. the floor.  The modelled report sequences agree with
  real CPython runs (e.g. for six features both emit
  0, 16, 33, 50, 66, 83, 99, 100 — the accumulated float drift makes the
  second-to-last report 99, not 100).
* Exceptions are modelled as explicit outcomes: `ZeroDivisionError` raised by
  `1 / total_features` when the collection is empty, and a fetch exception
  re-raised by `future.result()` when the underlying `requests.post` raised.
-/

namespace DCStats

/-! ## Definitions: shallow embedding of src/visualizer.py and statement-side helpers -/

/-- JSON scalar (leaf) values: strings, numbers, booleans and null.  Numbers
are modelled as integers (all numeric leaves in the claims are integers). -/
inductive Scalar where
  | str (s : String)
  | int (n : Int)
  | bool (b : Bool)
  | null
deriving DecidableEq, Repr

mutual

/-- A JSON-like value as produced by decoding a response body: either a
scalar, an object (ordered fields, as Python dicts are ordered), or an
array. -/
inductive Json where
  | prim (s : Scalar)
  | obj (fields : JObj)
  | arr (elems : JArr)
deriving DecidableEq, Repr

/-- The ordered field list of a JSON object. -/
inductive JObj where
  | nil
  | cons (key : String) (val : Json) (rest : JObj)
deriving DecidableEq, Repr

/-- The element list of a JSON array. -/
inductive JArr where
  | nil
  | cons (head : Json) (rest : JArr)
deriving DecidableEq, Repr

end

/-- Python string slicing name[:-1]: the string with its last character
removed (the empty string stays empty). -/
def dropLastChar (s : String) : String := String.mk s.data.dropLast

/-- Python dictionary assignment `d[k] = v` on an ordered association list:
if the key is present its value is overwritten in place, otherwise the new
pair is appended at the end. -/
def dictAssign {α : Type} (d : List (String × α)) (k : String) (v : α) :
    List (String × α) :=
  if d.any (fun p => p.1 == k) then d.map (fun p => if p.1 == k then (k, v) else p)
  else d ++ [(k, v)]

/-- Python `d.update kvs`: assign every pair of `kvs` into `d`, in order. -/
def dictUpdate {α : Type} (d : List (String × α)) (kvs : List (String × α)) :
    List (String × α) :=
  kvs.foldl (fun acc kv => dictAssign acc kv.1 kv.2) d

mutual

/-- The inner recursive `flatten x name` of `flatten_json`, threading the
mutated `out` dictionary.  On a dict it recurses into each value with path
`name + key + sep`; on a list it recurses into each element with path
`name + str i + sep` (sep being the underscore); on anything else it
records `out` at key name[:-1] mapped to the scalar. -/
def flattenAux : Json → String → List (String × Scalar) → List (String × Scalar)
  | .prim s, name, out => dictAssign out (dropLastChar name) s
  | .obj fields, name, out => flattenObj fields name out
  | .arr elems, name, out => flattenArr elems 0 name out

/-- Iteration of `flatten` over the fields of a dict, in order. -/
def flattenObj : JObj → String → List (String × Scalar) → List (String × Scalar)
  | .nil, _, out => out
  | .cons a x rest, name, out => flattenObj rest name (flattenAux x (name ++ a ++ "_") out)

/-- Iteration of `flatten` over the elements of a list with a running
index starting at 0. -/
def flattenArr : JArr → Nat → String → List (String × Scalar) → List (String × Scalar)
  | .nil, _, _, out => out
  | .cons x rest, i, name, out =>
      flattenArr rest (i + 1) name (flattenAux x (name ++ toString i ++ "_") out)

end

/-- The function `flatten_json` from src/visualizer.py: start with an empty
`out` and the empty path. -/
def flatten_json (y : Json) : List (String × Scalar) := flattenAux y "" []

/-- The example value of the spec: an object mapping key a to a nested
object that maps key b to 1, and key c to the array of 10 and 20. -/
def exampleJson : Json :=
  Json.obj (.cons "a" (Json.obj (.cons "b" (Json.prim (Scalar.int 1)) .nil))
    (.cons "c" (Json.arr (.cons (Json.prim (Scalar.int 10))
      (.cons (Json.prim (Scalar.int 20)) .nil))) .nil))

/-- The outcome of one `requests.post` call: a response with a status code
and a decoded JSON body, or a raised transport exception. -/
inductive PostResult where
  | resp (status : Nat) (body : Json)
  | exn
deriving DecidableEq, Repr

/-- Observable side effects of `fetch_data`, in order: the POST issued at a
given attempt index, a warning shown via `st.warning`, and a `time.sleep`. -/
inductive FetchEvent where
  | request (attempt : Nat)
  | warn (msg : String)
  | sleep (seconds : Nat)
deriving DecidableEq, Repr

/-- What `fetch_data` produces for the caller: the decoded body on a 200,
the Python None (no data available) on failure, or a raised transport
exception that propagates out of `fetch_data`. -/
inductive FetchResult where
  | json (body : Json)
  | notAvailable
  | raised
deriving DecidableEq, Repr

/-- The transient warning emitted before each backoff sleep (the sleep time
60 is interpolated into the message). -/
def rateLimitedMsg : String := "Rate limited by the API. Retrying in 60 seconds..."

/-- The terminal warning emitted when retries are exhausted. -/
def maxRetriesMsg : String :=
  "Max retries exceeded after rate limit. Please try again later."

/-- The retry loop of `fetch_data` over attempts in range max_retries.
`remaining` counts the loop iterations still allowed (max_retries minus
attempt, which is how the range bounds the loop); when it hits 0 the loop
body ends and Python implicitly returns None.  Within an iteration: status
200 returns the decoded body; status 429 with further attempts remaining
warns, sleeps 60 and retries; status 429 on the last attempt warns and
returns None; any other status returns None immediately; a raised transport
exception propagates. -/
def fetchAux (post : Nat → PostResult) (maxRetries : Nat) :
    Nat → Nat → FetchResult × List FetchEvent
  | _, 0 => (.notAvailable, [])
  | attempt, rem + 1 =>
    match post attempt with
    | .resp 200 body => (.json body, [.request attempt])
    | .resp 429 _ =>
      if attempt < maxRetries - 1 then
        let r := fetchAux post maxRetries (attempt + 1) rem
        (r.1, .request attempt :: .warn rateLimitedMsg :: .sleep 60 :: r.2)
      else (.notAvailable, [.request attempt, .warn maxRetriesMsg])
    | .resp _ _ => (.notAvailable, [.request attempt])
    | .exn => (.raised, [.request attempt])

/-- The function `fetch_data` from src/visualizer.py, modelled over the
sequence of network responses `post` (one per attempt).  Returns the fetch
result together with the list of observable events. -/
def fetch_data (post : Nat → PostResult) (maxRetries : Nat) :
    FetchResult × List FetchEvent :=
  fetchAux post maxRetries 0 maxRetries

/-- Python truthiness of a scalar: zero, the empty string, False and None
are falsy. -/
def Scalar.truthy : Scalar → Bool
  | .str s => !(s.data.isEmpty)
  | .int n => n != 0
  | .bool b => b
  | .null => false

/-- Python truthiness of a JSON-decoded value, as tested by the
orchestrator's if-result guard: empty dicts and empty lists are falsy,
scalars follow scalar truthiness. -/
def Json.truthy : Json → Bool
  | .prim s => s.truthy
  | .obj .nil => false
  | .obj (.cons _ _ _) => true
  | .arr .nil => false
  | .arr (.cons _ _) => true

/-- A GeoJSON feature: a geometry and its (ordered, mutable) property
mapping.  Property values are JSON values; merged statistics are scalar. -/
structure Feature where
  geometry : Json
  properties : List (String × Json)
deriving DecidableEq, Repr

/-- The exceptions the orchestrator can raise: ZeroDivisionError from
computing 1 / total_features on an empty collection, and a transport
exception re-raised by the result call on a future. -/
inductive PyError where
  | zeroDivisionError
  | fetchException
deriving DecidableEq, Repr

/-- The observable outcome of one `process_and_update_geojson` call: the
final feature list (mutations persist even when an exception aborts the
loop), the sequence of values sent to the progress bar, and the exception
that propagated to the caller, if any. -/
structure EnrichOutcome where
  features : List Feature
  reports : List Int
  error : Option PyError
deriving DecidableEq, Repr

/-- Replace the element at index `i` of a list by `f` applied to it
(identity when out of range). -/
def modifyIdx {α : Type} : List α → Nat → (α → α) → List α
  | [], _, _ => []
  | x :: xs, 0, f => f x :: xs
  | x :: xs, n + 1, f => x :: modifyIdx xs n f

/-- The update of a feature's properties with the flattened fetch result:
merge every flattened key of the body into the property mapping,
overwriting existing keys. -/
def mergeFlat (body : Json) (f : Feature) : Feature :=
  ⟨f.geometry,
    dictUpdate f.properties ((flatten_json body).map (fun kv => (kv.1, Json.prim kv.2)))⟩

/-- Round a rational to the nearest integer, ties to the even integer
(the rounding used by IEEE-754 binary64 arithmetic). -/
def rnEven (x : Rat) : Int :=
  if x - ⌊x⌋ < 1/2 then ⌊x⌋
  else if 1/2 < x - ⌊x⌋ then ⌊x⌋ + 1
  else if ⌊x⌋ % 2 = 0 then ⌊x⌋ else ⌊x⌋ + 1

/-- The quantum (unit-in-the-last-place) exponent binary64 uses at
magnitude `q`: 52 binary digits below the leading bit, clamped at the
subnormal quantum exponent -1074. -/
def qexp (q : Rat) : Int := max (Int.log 2 q - 52) (-1074)

/-- The binary64 value nearest to the rational `q` (ties to even),
represented exactly as a rational: `q` is scaled by its quantum, rounded to
an integer significand, and scaled back.  (Overflow to infinity is not
modelled; every value arising in this development stays far below the
binary64 overflow threshold.) -/
def roundD (q : Rat) : Rat :=
  if q = 0 then 0
  else if 0 < q then (rnEven (q / 2 ^ qexp q) : Rat) * 2 ^ qexp q
  else -((rnEven (-q / 2 ^ qexp (-q)) : Rat) * 2 ^ qexp (-q))

/-- Python float addition: the correctly rounded binary64 sum. -/
def addD (a b : Rat) : Rat := roundD (a + b)

/-- Python float multiplication: the correctly rounded binary64 product. -/
def mulD (a b : Rat) : Rat := roundD (a * b)

/-- Python true division of numbers, producing a float: the correctly
rounded binary64 quotient. -/
def divD (a b : Rat) : Rat := roundD (a / b)

/-- The body of the completion loop of the orchestrator (for future in
as_completed), processing completed tasks by feature index in completion
order `order`.  `inc` is progress_increment (the binary64 value of
1/total computed at line 67), `pv` is progress_value (the exact value of
the float accumulator), `reports` the progress values emitted so far.  A
raised fetch exception is re-raised by the result call and aborts the
loop; otherwise the if-result guard merges the flattened body when it is
truthy, then the accumulator grows by `inc` in float arithmetic and
min(int(pv * 100), 100) is reported, with the multiplication by 100 in
float arithmetic (for the nonnegative accumulator, Python int() is the
floor).  After the loop, line 82 reports 100 unconditionally. -/
def processLoop (result : Nat → FetchResult) (inc : Rat) :
    List Nat → List Feature → Rat → List Int → EnrichOutcome
  | [], feats, _, reports => ⟨feats, reports ++ [100], none⟩
  | i :: rest, feats, pv, reports =>
    match result i with
    | .raised => ⟨feats, reports, some .fetchException⟩
    | .notAvailable =>
      processLoop result inc rest feats (addD pv inc)
        (reports ++ [min (Int.floor (mulD (addD pv inc) 100)) 100])
    | .json body =>
      processLoop result inc rest
        (if body.truthy then modifyIdx feats i (mergeFlat body) else feats)
        (addD pv inc)
        (reports ++ [min (Int.floor (mulD (addD pv inc) 100)) 100])

/-- The function `process_and_update_geojson` from src/visualizer.py,
modelled over the per-feature fetch results and the completion order of the
concurrent tasks.  Line 64 emits the initial 0 via st.progress; then line
67 computes 1 / total_features — raising ZeroDivisionError when the
collection is empty, and otherwise producing the float 1/total — then the
completion loop runs and line 82 finally reports 100. -/
def process_and_update_geojson (feats : List Feature) (result : Nat → FetchResult)
    (order : List Nat) : EnrichOutcome :=
  if feats.length = 0 then ⟨feats, [0], some .zeroDivisionError⟩
  else processLoop result (divD 1 (feats.length : Rat)) order feats 0 [0]

/-- The key list of an association list. -/
def keys {α : Type} (d : List (String × α)) : List String := d.map Prod.fst

mutual

/-- The root-to-leaf paths of a JSON value's tree, with the scalar at each
leaf.  A path is the list of components from the root: object keys and
decimal array indices, in visiting order. -/
def leafPaths : Json → List (List String × Scalar)
  | .prim s => [([], s)]
  | .obj fields => objLeafPaths fields
  | .arr elems => arrLeafPaths elems 0

/-- Root-to-leaf paths of the fields of an object. -/
def objLeafPaths : JObj → List (List String × Scalar)
  | .nil => []
  | .cons a x rest =>
      (leafPaths x).map (fun ps => (a :: ps.1, ps.2)) ++ objLeafPaths rest

/-- Root-to-leaf paths of the elements of an array, indices counted from
`i`. -/
def arrLeafPaths : JArr → Nat → List (List String × Scalar)
  | .nil, _ => []
  | .cons x rest, i =>
      (leafPaths x).map (fun ps => (toString i :: ps.1, ps.2)) ++ arrLeafPaths rest (i + 1)

end

/-- Path components joined with the underscore separator. -/
def joinPath : List String → String
  | [] => ""
  | [c] => c
  | c :: rest => c ++ "_" ++ joinPath rest

/-- Path components each followed by a trailing underscore, concatenated:
this is the raw accumulator string the flattener builds before stripping
the final separator. -/
def joinRaw : List String → String
  | [] => ""
  | c :: rest => c ++ "_" ++ joinRaw rest

/-- The flattened key/value pairs produced for a list of paths under
accumulated prefix `name`. -/
def keyedWith (name : String) (l : List (List String × Scalar)) :
    List (String × Scalar) :=
  l.map (fun ps => (dropLastChar (name ++ joinRaw ps.1), ps.2))

/-- The association of joined path to leaf scalar, one entry per
root-to-leaf path in visiting order. -/
def pathKeyed (l : List (List String × Scalar)) : List (String × Scalar) :=
  l.map (fun ps => (joinPath ps.1, ps.2))

/-- Whether an event is an issued POST request. -/
def isRequest : FetchEvent → Bool
  | .request _ => true
  | _ => false

/-- The event trace of a fetch whose every attempt is rate-limited, with
at least one configured attempt: m - 1 rounds of request, transient
warning and 60-unit sleep, then a final request followed by the terminal
warning. -/
def all429Events (m : Nat) : List FetchEvent :=
  (List.range (m - 1)).flatMap (fun i => [.request i, .warn rateLimitedMsg, .sleep 60])
    ++ [.request (m - 1), .warn maxRetriesMsg]

/-- The progress values emitted by `m` further loop iterations starting
from accumulator value `pv`: each iteration adds the float increment `inc`
in float arithmetic and emits min(int(pv * 100), 100). -/
def stepReports (inc : Rat) : Rat → Nat → List Int
  | _, 0 => []
  | pv, m + 1 =>
    min (Int.floor (mulD (addD pv inc) 100)) 100 ::
      stepReports inc (addD pv inc) m

/-- The float accumulator value after `k` additions of the float increment
`inc` starting from 0: the binary64 partial sum. -/
def sumD (inc : Rat) : Nat → Rat
  | 0 => 0
  | k + 1 => addD (sumD inc k) inc

/-- The progress value reported after `k` tasks of increment `inc` have
been handled: min(int(pv_k * 100), 100) for the binary64 accumulator
pv_k, with Python int() being the floor of the nonnegative argument. -/
def reportAtD (inc : Rat) (k : Nat) : Int :=
  min (Int.floor (mulD (sumD inc k) 100)) 100

/-- What one completed task does to the feature list: merge the flattened
body into feature `i` when the result is truthy, otherwise leave the list
unchanged. -/
def stepFeature (result : Nat → FetchResult) (feats : List Feature) (i : Nat) :
    List Feature :=
  match result i with
  | .json body => if body.truthy then modifyIdx feats i (mergeFlat body) else feats
  | _ => feats

/-- The per-feature effect of enrichment on the feature at index `i`: a
truthy result has its flattened body merged, everything else leaves the
feature untouched. -/
def featTransform (result : Nat → FetchResult) (i : Nat) (f : Feature) : Feature :=
  match result i with
  | .json body => if body.truthy then mergeFlat body f else f
  | _ => f

/-- The expected output features: each feature transformed according to
its own fetch result (indices counted from the first argument). -/
def enrichExpected (result : Nat → FetchResult) : Nat → List Feature → List Feature
  | _, [] => []
  | i, f :: fs => featTransform result i f :: enrichExpected result (i + 1) fs

/-- Concrete feature used by the closed counterexample runs. -/
def exampleFeatureA : Feature :=
  ⟨Json.prim Scalar.null, [("name", Json.prim (Scalar.str "A"))]⟩

/-- A second concrete feature. -/
def exampleFeatureB : Feature :=
  ⟨Json.prim Scalar.null, [("name", Json.prim (Scalar.str "B"))]⟩

/-- The keys actually merged into a feature's properties: the keys of the
flattened body when the result is a truthy decoded 200 body, nothing
otherwise. -/
def mergedKeys (result : Nat → FetchResult) (i : Nat) : List String :=
  match result i with
  | .json body => if body.truthy then keys (flatten_json body) else []
  | _ => []

/-! ## Theorems -/

theorem mem_keys_iff {α : Type} {d : List (String × α)} {k : String} :
    k ∈ keys d ↔ ∃ v, (k, v) ∈ d := by
  constructor
  · intro h
    rcases List.mem_map.mp h with ⟨p, hp, he⟩
    exact ⟨p.2, by rcases p with ⟨a, b⟩; cases he; exact hp⟩
  · rintro ⟨v, hv⟩
    exact List.mem_map.mpr ⟨(k, v), hv, rfl⟩

theorem keys_dictAssign {α : Type} {d : List (String × α)} {k k' : String} {v : α} :
    k' ∈ keys (dictAssign d k v) ↔ k' ∈ keys d ∨ k' = k := by
  unfold dictAssign
  by_cases h : d.any (fun p => p.1 == k)
  · rcases List.any_eq_true.mp h with ⟨p, hp, hpk⟩
    have hk : k ∈ keys d := by
      rw [beq_iff_eq] at hpk
      exact hpk ▸ List.mem_map.mpr ⟨p, hp, rfl⟩
    rw [if_pos h]
    have : keys (d.map fun p => if p.1 == k then (k, v) else p) = keys d := by
      unfold keys
      rw [List.map_map]
      refine List.map_congr_left ?_
      intro p _
      by_cases hpk : p.1 == k
      · simp only [Function.comp, hpk, if_pos]
        exact (beq_iff_eq.mp hpk).symm
      · simp only [Function.comp, hpk]
        rw [if_neg (by simp [hpk])]
    rw [this]
    constructor
    · exact Or.inl
    · rintro (hl | rfl)
      · exact hl
      · exact hk
  · rw [if_neg h]
    unfold keys
    rw [List.map_append]
    simp [List.mem_append]

theorem mem_dictAssign {α : Type} {d : List (String × α)} {k k' : String} {v v' : α}
    (h : (k', v') ∈ dictAssign d k v) : (k', v') ∈ d ∨ (k', v') = (k, v) := by
  unfold dictAssign at h
  by_cases ha : d.any (fun p => p.1 == k)
  · rw [if_pos ha] at h
    rcases List.mem_map.mp h with ⟨p, hp, he⟩
    by_cases hpk : p.1 == k
    · rw [if_pos hpk] at he
      exact Or.inr he.symm
    · rw [if_neg hpk] at he
      exact Or.inl (he ▸ hp)
  · rw [if_neg ha] at h
    rcases List.mem_append.mp h with hl | hr
    · exact Or.inl hl
    · exact Or.inr (List.mem_singleton.mp hr)

theorem mem_dictAssign_of_ne {α : Type} {d : List (String × α)} {k k' : String} {v v' : α}
    (h : (k', v') ∈ d) (hne : k' ≠ k) : (k', v') ∈ dictAssign d k v := by
  unfold dictAssign
  by_cases ha : d.any (fun p => p.1 == k)
  · rw [if_pos ha]
    refine List.mem_map.mpr ⟨(k', v'), h, ?_⟩
    rw [if_neg (by simpa using hne)]
  · rw [if_neg ha]
    exact List.mem_append.mpr (Or.inl h)

theorem dictUpdate_nil {α : Type} (d : List (String × α)) : dictUpdate d [] = d := rfl

theorem dictUpdate_cons {α : Type} (d : List (String × α)) (kv : String × α)
    (kvs : List (String × α)) :
    dictUpdate d (kv :: kvs) = dictUpdate (dictAssign d kv.1 kv.2) kvs := rfl

theorem dictUpdate_append {α : Type} (d l₁ l₂ : List (String × α)) :
    dictUpdate d (l₁ ++ l₂) = dictUpdate (dictUpdate d l₁) l₂ := by
  simp [dictUpdate, List.foldl_append]

theorem mem_keys_dictUpdate {α : Type} {d kvs : List (String × α)} {k : String} :
    k ∈ keys (dictUpdate d kvs) ↔ k ∈ keys d ∨ k ∈ keys kvs := by
  induction kvs generalizing d with
  | nil => simp [dictUpdate_nil, keys]
  | cons kv kvs ih =>
    rw [dictUpdate_cons, ih]
    rcases kv with ⟨a, b⟩
    have : k ∈ keys ((a, b) :: kvs) ↔ k = a ∨ k ∈ keys kvs := by
      simp [keys]
    rw [keys_dictAssign, this]
    tauto

theorem mem_dictUpdate_inv {α : Type} {d kvs : List (String × α)} {k : String} {v : α}
    (h : (k, v) ∈ dictUpdate d kvs) : (k, v) ∈ d ∨ (k, v) ∈ kvs := by
  induction kvs generalizing d with
  | nil => exact Or.inl h
  | cons kv kvs ih =>
    rw [dictUpdate_cons] at h
    rcases ih h with hl | hr
    · rcases mem_dictAssign hl with hd | he
      · exact Or.inl hd
      · rcases kv with ⟨a, b⟩
        exact Or.inr (List.mem_cons.mpr (Or.inl he))
    · exact Or.inr (List.mem_cons.mpr (Or.inr hr))

theorem mem_dictUpdate_of_not_key {α : Type} {d kvs : List (String × α)} {k : String} {v : α}
    (h : (k, v) ∈ d) (hk : k ∉ keys kvs) : (k, v) ∈ dictUpdate d kvs := by
  induction kvs generalizing d with
  | nil => exact h
  | cons kv kvs ih =>
    rcases kv with ⟨a, b⟩
    rw [dictUpdate_cons]
    have hka : k ≠ a := fun he => hk (by simp [keys, he])
    have hk' : k ∉ keys kvs := fun hm => hk (by simp [keys] at hm ⊢; tauto)
    exact ih (mem_dictAssign_of_ne h hka) hk'

theorem dropLastChar_append (a b : String) (h : b.data ≠ []) :
    dropLastChar (a ++ b) = a ++ dropLastChar b := by
  cases a with | mk da =>
  cases b with | mk db =>
  show String.mk ((da ++ db).dropLast) = String.mk (da ++ db.dropLast)
  rw [List.dropLast_append_of_ne_nil _ h]

theorem joinRaw_cons_data_ne_nil (c : String) (p : List String) :
    (joinRaw (c :: p)).data ≠ [] := by
  show ((c ++ "_") ++ joinRaw p).data ≠ []
  simp [String.data_append]

theorem dropLastChar_joinRaw : ∀ p : List String, dropLastChar (joinRaw p) = joinPath p
  | [] => rfl
  | [c] => by
    have hd : (joinRaw [c]).data = c.data ++ ['_'] := by
      show (((c ++ "_") ++ joinRaw []).data) = c.data ++ ['_']
      simp [joinRaw, String.data_append, String.append_empty]
    unfold dropLastChar
    rw [hd, List.dropLast_concat]
    rfl
  | c :: c' :: p => by
    show dropLastChar ((c ++ "_") ++ joinRaw (c' :: p)) = joinPath (c :: c' :: p)
    rw [dropLastChar_append _ _ (joinRaw_cons_data_ne_nil c' p),
      dropLastChar_joinRaw (c' :: p)]
    rfl

theorem keyedWith_append (name : String) (l₁ l₂ : List (List String × Scalar)) :
    keyedWith name (l₁ ++ l₂) = keyedWith name l₁ ++ keyedWith name l₂ := by
  simp [keyedWith]

theorem keyedWith_consPath (name c : String) (l : List (List String × Scalar)) :
    keyedWith name (l.map (fun ps => (c :: ps.1, ps.2))) =
      keyedWith (name ++ c ++ "_") l := by
  unfold keyedWith
  rw [List.map_map]
  refine List.map_congr_left ?_
  intro ps _
  show (dropLastChar (name ++ joinRaw (c :: ps.1)), ps.2) = _
  have h : name ++ joinRaw (c :: ps.1) = (name ++ c ++ "_") ++ joinRaw ps.1 := by
    show name ++ ((c ++ "_") ++ joinRaw ps.1) = ((name ++ c) ++ "_") ++ joinRaw ps.1
    rw [← String.append_assoc, ← String.append_assoc]
  rw [h]

mutual

theorem flattenAux_eq : ∀ (x : Json) (name : String) (out : List (String × Scalar)),
    flattenAux x name out = dictUpdate out (keyedWith name (leafPaths x))
  | .prim s, name, out => by
    show dictAssign out (dropLastChar name) s = dictUpdate out (keyedWith name [([], s)])
    simp [keyedWith, dictUpdate, joinRaw, String.append_empty]
  | .obj fields, name, out => by
    show flattenObj fields name out = _
    rw [flattenObj_eq fields name out]
    rfl
  | .arr elems, name, out => by
    show flattenArr elems 0 name out = _
    rw [flattenArr_eq elems 0 name out]
    rfl

theorem flattenObj_eq : ∀ (fs : JObj) (name : String) (out : List (String × Scalar)),
    flattenObj fs name out = dictUpdate out (keyedWith name (objLeafPaths fs))
  | .nil, name, out => by
    simp [flattenObj, objLeafPaths, keyedWith, dictUpdate_nil]
  | .cons a x rest, name, out => by
    show flattenObj rest name (flattenAux x (name ++ a ++ "_") out) = _
    rw [flattenObj_eq rest, flattenAux_eq x]
    show _ = dictUpdate out (keyedWith name
      ((leafPaths x).map (fun ps => (a :: ps.1, ps.2)) ++ objLeafPaths rest))
    rw [keyedWith_append, dictUpdate_append, keyedWith_consPath]

theorem flattenArr_eq : ∀ (es : JArr) (i : Nat) (name : String) (out : List (String × Scalar)),
    flattenArr es i name out = dictUpdate out (keyedWith name (arrLeafPaths es i))
  | .nil, i, name, out => by
    simp [flattenArr, arrLeafPaths, keyedWith, dictUpdate_nil]
  | .cons x rest, i, name, out => by
    show flattenArr rest (i + 1) name (flattenAux x (name ++ toString i ++ "_") out) = _
    rw [flattenArr_eq rest, flattenAux_eq x]
    show _ = dictUpdate out (keyedWith name
      ((leafPaths x).map (fun ps => (toString i :: ps.1, ps.2)) ++ arrLeafPaths rest (i + 1)))
    rw [keyedWith_append, dictUpdate_append, keyedWith_consPath]

end

theorem keyedWith_empty (l : List (List String × Scalar)) :
    keyedWith "" l = pathKeyed l := by
  unfold keyedWith pathKeyed
  refine List.map_congr_left ?_
  intro ps _
  rw [String.empty_append, dropLastChar_joinRaw]

/-- Characterization of `flatten_json`: it is the dictionary built by
assigning, for every root-to-leaf path of the input in visiting order, the
joined path key to the leaf scalar. -/
theorem flatten_json_eq (v : Json) :
    flatten_json v = dictUpdate [] (pathKeyed (leafPaths v)) := by
  unfold flatten_json
  rw [flattenAux_eq, keyedWith_empty]

theorem mem_keys_pathKeyed {l : List (List String × Scalar)} {k : String} :
    k ∈ keys (pathKeyed l) ↔ ∃ p s, (p, s) ∈ l ∧ joinPath p = k := by
  unfold pathKeyed keys
  rw [List.map_map]
  constructor
  · intro h
    rcases List.mem_map.mp h with ⟨ps, hps, he⟩
    exact ⟨ps.1, ps.2, hps, he⟩
  · rintro ⟨p, s, hmem, he⟩
    exact List.mem_map.mpr ⟨(p, s), hmem, he⟩

theorem mem_pathKeyed {l : List (List String × Scalar)} {k : String} {s : Scalar}
    (h : (k, s) ∈ pathKeyed l) : ∃ p, (p, s) ∈ l ∧ joinPath p = k := by
  rcases List.mem_map.mp h with ⟨ps, hps, he⟩
  rcases ps with ⟨p, s'⟩
  cases he
  exact ⟨p, hps, rfl⟩

/-- C6: for every (acyclic) JSON-like value `v`, the keys of
`flatten_json v` are exactly the root-to-leaf paths of the value tree of
`v` joined with the underscore separator, and every recorded value is the
leaf scalar sitting at a path that joins to its key (types preserved, since
`Scalar` carries the value unchanged); `flatten_json` of the spec's example
(object with a nested object and a two-element array) is the expected flat
mapping, and `flatten_json` of an empty object or empty array is the empty
mapping.  (When two distinct paths join to the same key — the collision
edge case the spec documents separately — the later-visited leaf wins,
which is why the value correspondence is stated per recorded entry.) -/
theorem C6_flatten_root_to_leaf_paths :
    (∀ (v : Json) (k : String),
        (∃ s, (k, s) ∈ flatten_json v) ↔ ∃ p s, (p, s) ∈ leafPaths v ∧ joinPath p = k)
    ∧ (∀ (v : Json) (k : String) (s : Scalar),
        (k, s) ∈ flatten_json v → ∃ p, (p, s) ∈ leafPaths v ∧ joinPath p = k)
    ∧ flatten_json exampleJson =
        [("a_b", Scalar.int 1), ("c_0", Scalar.int 10), ("c_1", Scalar.int 20)]
    ∧ flatten_json (Json.obj .nil) = []
    ∧ flatten_json (Json.arr .nil) = [] := by
  refine ⟨?_, ?_, by decide, by decide, by decide⟩
  · intro v k
    rw [← mem_keys_iff, flatten_json_eq, mem_keys_dictUpdate, ← mem_keys_pathKeyed]
    simp [keys]
  · intro v k s h
    rw [flatten_json_eq] at h
    rcases mem_dictUpdate_inv h with hnil | hp
    · cases hnil
    · exact mem_pathKeyed hp

/-- Witness for C6: instantiates the value correspondence at the example
input, for the recorded entry mapping key c_0 to 10. -/
theorem C6_flatten_root_to_leaf_paths_witness :
    ∃ p, (p, Scalar.int 10) ∈ leafPaths exampleJson ∧ joinPath p = "c_0" :=
  C6_flatten_root_to_leaf_paths.2.1 exampleJson "c_0" (Scalar.int 10) (by decide)

/-- C10: flattening a bare scalar (neither dict nor list) yields the
singleton mapping from the empty-string key (the empty path with its
trailing separator stripped) to the scalar itself. -/
theorem C10_flatten_scalar (s : Scalar) :
    flatten_json (Json.prim s) = [("", s)] := rfl

theorem countP_request_chunk (l : List Nat) :
    (l.flatMap (fun i => [FetchEvent.request i, .warn rateLimitedMsg, .sleep 60])).countP
      (fun e => isRequest e) = l.length := by
  induction l with
  | nil => rfl
  | cons i l ih =>
    rw [List.flatMap_cons, List.countP_append, ih]
    simp [List.countP_cons, isRequest]
    omega

theorem fetchAux_all429 (body : Nat → Json) (m : Nat) :
    ∀ (rem attempt : Nat), attempt + rem = m → 1 ≤ rem →
      fetchAux (fun a => .resp 429 (body a)) m attempt rem =
        (.notAvailable,
          (List.range' attempt (rem - 1)).flatMap
              (fun i => [.request i, .warn rateLimitedMsg, .sleep 60])
            ++ [.request (m - 1), .warn maxRetriesMsg]) := by
  intro rem
  induction rem with
  | zero => omega
  | succ r ih =>
    intro attempt hsum _
    rcases Nat.eq_zero_or_pos r with hr0 | hrpos
    · subst hr0
      have hatt : attempt = m - 1 := by omega
      have hnlt : ¬ attempt < m - 1 := by omega
      simp only [fetchAux, hnlt, if_false]
      subst hatt
      rfl
    · have hlt : attempt < m - 1 := by omega
      simp only [fetchAux, hlt, if_true]
      rw [ih (attempt + 1) (by omega) hrpos]
      have hr : r + 1 - 1 = (r - 1) + 1 := by omega
      rw [hr, List.range'_succ attempt (r - 1) 1, List.flatMap_cons]
      rfl

/-- C5: `fetch_data` retries only on status 429, with a fixed 60-unit
backoff and a transient warning emitted before each sleep.  Given 429
exactly twice and then 200 (with the default three maximum attempts), it
performs two warn-and-sleep retry rounds and returns the decoded 200
payload; given 429 on every attempt with any configured maximum of m at
least 1 attempts, it returns NotAvailable after issuing exactly m POST
attempts; and any other non-200 status on the first attempt makes it return
NotAvailable immediately, with no retry, warning or sleep. -/
theorem C5_fetch_retry_and_statuses :
    (∀ b : Json,
      fetch_data (fun a => if a < 2 then .resp 429 (Json.obj .nil) else .resp 200 b) 3 =
        (.json b, [.request 0, .warn rateLimitedMsg, .sleep 60,
                   .request 1, .warn rateLimitedMsg, .sleep 60, .request 2]))
    ∧ (∀ (body : Nat → Json) (m : Nat), 1 ≤ m →
        fetch_data (fun a => .resp 429 (body a)) m = (.notAvailable, all429Events m)
        ∧ (all429Events m).countP (fun e => isRequest e) = m)
    ∧ (∀ (post : Nat → PostResult) (c : Nat) (b : Json) (m : Nat),
        post 0 = .resp c b → c ≠ 200 → c ≠ 429 → 1 ≤ m →
        fetch_data post m = (.notAvailable, [.request 0])) := by
  refine ⟨fun b => rfl, ?_, ?_⟩
  · intro body m hm
    constructor
    · unfold fetch_data
      rw [fetchAux_all429 body m m 0 (by omega) hm]
      unfold all429Events
      rw [List.range_eq_range' (m - 1)]
    · unfold all429Events
      rw [List.countP_append, countP_request_chunk, List.length_range]
      have h1 : [FetchEvent.request (m - 1), .warn maxRetriesMsg].countP
          (fun e => isRequest e) = 1 := by
        simp [List.countP_cons, isRequest]
      omega
  · intro post c b m hpost hc200 hc429 hm
    obtain ⟨mm, rfl⟩ : ∃ mm, m = mm + 1 := ⟨m - 1, by omega⟩
    show fetchAux post (mm + 1) 0 (mm + 1) = _
    simp only [fetchAux, hpost]

/-- Witness for C5: the all-429 case at three attempts and the
immediate-failure case at status 500. -/
theorem C5_fetch_retry_and_statuses_witness :
    (fetch_data (fun a => .resp 429 ((fun _ => Json.obj .nil) a)) 3 =
        (.notAvailable, all429Events 3)
      ∧ (all429Events 3).countP (fun e => isRequest e) = 3)
    ∧ fetch_data (fun _ => PostResult.resp 500 (Json.obj .nil)) 3 =
        (.notAvailable, [.request 0]) :=
  ⟨C5_fetch_retry_and_statuses.2.1 (fun _ => Json.obj .nil) 3 (by norm_num),
   C5_fetch_retry_and_statuses.2.2 (fun _ => PostResult.resp 500 (Json.obj .nil))
     500 (Json.obj .nil) 3 rfl (by norm_num) (by norm_num) (by norm_num)⟩

theorem processLoop_reports_error (result : Nat → FetchResult) (inc : Rat) :
    ∀ (rest : List Nat) (feats : List Feature) (pv : Rat) (reports : List Int),
      (∀ i ∈ rest, result i ≠ .raised) →
      (processLoop result inc rest feats pv reports).reports =
          reports ++ stepReports inc pv rest.length ++ [100]
        ∧ (processLoop result inc rest feats pv reports).error = none := by
  intro rest
  induction rest with
  | nil => intro feats pv reports _; simp [processLoop, stepReports]
  | cons i rest ih =>
    intro feats pv reports hok
    have hi : result i ≠ .raised := hok i (List.mem_cons_self i rest)
    have hrest : ∀ j ∈ rest, result j ≠ .raised :=
      fun j hj => hok j (List.mem_cons_of_mem i hj)
    rcases h : result i with body | _ | _
    · simp only [processLoop, h]
      rcases ih (if body.truthy then modifyIdx feats i (mergeFlat body) else feats)
        (addD pv inc)
        (reports ++ [min (Int.floor (mulD (addD pv inc) 100)) 100]) hrest with
        ⟨hr, he⟩
      refine ⟨?_, he⟩
      rw [hr]
      simp [stepReports, List.append_assoc]
    · simp only [processLoop, h]
      rcases ih feats (addD pv inc)
        (reports ++ [min (Int.floor (mulD (addD pv inc) 100)) 100]) hrest with
        ⟨hr, he⟩
      refine ⟨?_, he⟩
      rw [hr]
      simp [stepReports, List.append_assoc]
    · exact absurd h hi

theorem stepReports_eq (inc : Rat) : ∀ (m k : Nat),
    stepReports inc (sumD inc k) m =
      (List.range m).map (fun j => reportAtD inc (k + j + 1)) := by
  intro m
  induction m with
  | zero => intro k; rfl
  | succ m ih =>
    intro k
    show min (Int.floor (mulD (addD (sumD inc k) inc) 100)) 100 ::
        stepReports inc (addD (sumD inc k) inc) m = _
    have hs : addD (sumD inc k) inc = sumD inc (k + 1) := rfl
    rw [hs, ih (k + 1), List.range_succ_eq_map, List.map_cons, List.map_map]
    refine congrArg₂ _ ?_ ?_
    · show reportAtD inc (k + 1) = reportAtD inc (k + 0 + 1)
      rw [Nat.add_zero]
    · refine List.map_congr_left ?_
      intro j _
      show reportAtD inc (k + 1 + j + 1) = reportAtD inc (k + (j + 1) + 1)
      have : k + 1 + j + 1 = k + (j + 1) + 1 := by omega
      rw [this]

/-- Reports of a full run with a nonempty collection: the initial 0 from
st.progress, one report per handled task (the float accumulator after k
additions of the float increment, times 100 in float arithmetic, truncated
and clamped), and the final unconditional 100 from line 82. -/
theorem enrich_reports (feats : List Feature) (result : Nat → FetchResult)
    (order : List Nat) (hn : feats.length ≠ 0) (hlen : order.length = feats.length)
    (hok : ∀ i ∈ order, result i ≠ .raised) :
    (process_and_update_geojson feats result order).reports =
        0 :: ((List.range feats.length).map
            (fun j => reportAtD (divD 1 (feats.length : Rat)) (j + 1))
          ++ [100])
      ∧ (process_and_update_geojson feats result order).error = none := by
  unfold process_and_update_geojson
  rw [if_neg hn]
  rcases processLoop_reports_error result (divD 1 (feats.length : Rat)) order
    feats 0 [0] hok with ⟨hr, he⟩
  refine ⟨?_, he⟩
  rw [hr, hlen]
  have h0 : (0 : Rat) = sumD (divD 1 (feats.length : Rat)) 0 := rfl
  rw [h0, stepReports_eq (divD 1 (feats.length : Rat)) feats.length 0]
  simp only [Nat.zero_add, List.cons_append, List.nil_append, List.append_assoc]

theorem processLoop_features (result : Nat → FetchResult) (inc : Rat) :
    ∀ (rest : List Nat) (feats : List Feature) (pv : Rat) (reports : List Int),
      (∀ i ∈ rest, result i ≠ .raised) →
      (processLoop result inc rest feats pv reports).features =
        rest.foldl (stepFeature result) feats := by
  intro rest
  induction rest with
  | nil => intro feats pv reports _; rfl
  | cons i rest ih =>
    intro feats pv reports hok
    have hi : result i ≠ .raised := hok i (List.mem_cons_self i rest)
    have hrest : ∀ j ∈ rest, result j ≠ .raised :=
      fun j hj => hok j (List.mem_cons_of_mem i hj)
    rcases h : result i with body | _ | _
    · simp only [processLoop, h, List.foldl_cons]
      rw [ih _ _ _ hrest]
      have : stepFeature result feats i =
          if body.truthy then modifyIdx feats i (mergeFlat body) else feats := by
        simp [stepFeature, h]
      rw [this]
    · simp only [processLoop, h, List.foldl_cons]
      rw [ih _ _ _ hrest]
      have : stepFeature result feats i = feats := by simp [stepFeature, h]
      rw [this]
    · exact absurd h hi

theorem length_modifyIdx {α : Type} :
    ∀ (l : List α) (i : Nat) (f : α → α), (modifyIdx l i f).length = l.length
  | [], _, _ => rfl
  | _ :: xs, 0, f => by simp [modifyIdx]
  | _ :: xs, n + 1, f => by simp [modifyIdx, length_modifyIdx xs n f]

theorem getElem?_modifyIdx {α : Type} :
    ∀ (l : List α) (i j : Nat) (f : α → α),
      (modifyIdx l i f)[j]? = if i = j then (l[j]?).map f else l[j]? := by
  intro l
  induction l with
  | nil => intro i j f; simp [modifyIdx]
  | cons x xs ih =>
    intro i j f
    cases i with
    | zero =>
      cases j with
      | zero => simp [modifyIdx]
      | succ j => simp [modifyIdx]
    | succ i =>
      cases j with
      | zero => simp [modifyIdx]
      | succ j =>
        simp only [modifyIdx, List.getElem?_cons_succ]
        rw [ih i j f]
        by_cases hij : i = j
        · simp [hij]
        · have hne : ¬ (i + 1 = j + 1) := by omega
          simp [hij, hne]

theorem getElem?_stepFeature (result : Nat → FetchResult) (feats : List Feature)
    (i j : Nat) :
    (stepFeature result feats i)[j]? =
      if i = j then (feats[j]?).map (featTransform result i) else feats[j]? := by
  rcases h : result i with body | _ | _
  · by_cases ht : body.truthy
    · have hf : featTransform result i = mergeFlat body :=
        funext fun f => by simp [featTransform, h, ht]
      simp [stepFeature, h, ht, getElem?_modifyIdx, hf]
    · have hf : featTransform result i = fun f => f :=
        funext fun f => by simp [featTransform, h, ht]
      simp only [stepFeature, h, ht, if_false, hf]
      by_cases hij : i = j
      · simp [hij, Option.map_id']
      · simp [hij]
  · have hf : featTransform result i = fun f => f :=
      funext fun f => by simp [featTransform, h]
    simp only [stepFeature, h, hf]
    by_cases hij : i = j
    · simp [hij, Option.map_id']
    · simp [hij]
  · have hf : featTransform result i = fun f => f :=
      funext fun f => by simp [featTransform, h]
    simp only [stepFeature, h, hf]
    by_cases hij : i = j
    · simp [hij, Option.map_id']
    · simp [hij]

theorem length_stepFeature (result : Nat → FetchResult) (feats : List Feature)
    (i : Nat) : (stepFeature result feats i).length = feats.length := by
  rcases h : result i with body | _ | _
  · by_cases ht : body.truthy <;> simp [stepFeature, h, ht, length_modifyIdx]
  · simp [stepFeature, h]
  · simp [stepFeature, h]

theorem length_foldl_stepFeature (result : Nat → FetchResult) :
    ∀ (l : List Nat) (feats : List Feature),
      (l.foldl (stepFeature result) feats).length = feats.length := by
  intro l
  induction l with
  | nil => intro feats; rfl
  | cons i l ih =>
    intro feats
    rw [List.foldl_cons, ih, length_stepFeature]

theorem getElem?_foldl_stepFeature_not_mem (result : Nat → FetchResult) :
    ∀ (l : List Nat) (feats : List Feature) (j : Nat), j ∉ l →
      (l.foldl (stepFeature result) feats)[j]? = feats[j]? := by
  intro l
  induction l with
  | nil => intro feats j _; rfl
  | cons i l ih =>
    intro feats j hj
    have hij : i ≠ j := fun he => hj (he ▸ List.mem_cons_self i l)
    have hjl : j ∉ l := fun hm => hj (List.mem_cons_of_mem i hm)
    rw [List.foldl_cons, ih _ _ hjl, getElem?_stepFeature, if_neg hij]

theorem getElem?_foldl_stepFeature_count_one (result : Nat → FetchResult) :
    ∀ (l : List Nat) (feats : List Feature) (j : Nat), l.count j = 1 →
      (l.foldl (stepFeature result) feats)[j]? =
        (feats[j]?).map (featTransform result j) := by
  intro l
  induction l with
  | nil => intro feats j h; cases h
  | cons i l ih =>
    intro feats j hcount
    rw [List.foldl_cons]
    by_cases hij : i = j
    · subst hij
      have hzero : l.count i = 0 := by
        rw [List.count_cons_self] at hcount
        omega
      have hnot : i ∉ l := List.count_eq_zero.mp hzero
      rw [getElem?_foldl_stepFeature_not_mem result l _ i hnot,
        getElem?_stepFeature, if_pos rfl]
    · have hone : l.count j = 1 := by
        rw [List.count_cons] at hcount
        simpa [hij] using hcount
      rw [ih _ _ hone, getElem?_stepFeature, if_neg hij]

theorem getElem?_enrichExpected (result : Nat → FetchResult) :
    ∀ (feats : List Feature) (i0 j : Nat),
      (enrichExpected result i0 feats)[j]? =
        (feats[j]?).map (featTransform result (i0 + j)) := by
  intro feats
  induction feats with
  | nil => intro i0 j; simp [enrichExpected]
  | cons f fs ih =>
    intro i0 j
    cases j with
    | zero => simp [enrichExpected]
    | succ j =>
      simp only [enrichExpected, List.getElem?_cons_succ]
      rw [ih (i0 + 1) j]
      have he : i0 + 1 + j = i0 + (j + 1) := by omega
      rw [he]

/-- The features returned by a run whose tasks all complete (no transport
exception), for any completion order that handles each of the n tasks
exactly once: each feature is transformed according to its own fetch
result. -/
theorem enrich_features_eq (feats : List Feature) (result : Nat → FetchResult)
    (order : List Nat) (hperm : order.Perm (List.range feats.length))
    (hok : ∀ i ∈ order, result i ≠ .raised) :
    (process_and_update_geojson feats result order).features =
      enrichExpected result 0 feats := by
  by_cases hn : feats.length = 0
  · have hfe : feats = [] := List.length_eq_zero.mp hn
    subst hfe
    have hord : order = [] := hperm.eq_nil
    subst hord
    rfl
  · unfold process_and_update_geojson
    rw [if_neg hn,
      processLoop_features result (divD 1 (feats.length : Rat)) order feats 0 [0] hok]
    refine List.ext_getElem? ?_
    intro j
    rw [getElem?_enrichExpected result feats 0 j]
    simp only [Nat.zero_add]
    by_cases hj : j < feats.length
    · have hcount : order.count j = 1 := by
        rw [hperm.count_eq]
        exact List.count_eq_one_of_mem (List.nodup_range _) (List.mem_range.mpr hj)
      exact getElem?_foldl_stepFeature_count_one result order feats j hcount
    · have hnotmem : j ∉ order := fun hm =>
        hj (List.mem_range.mp (hperm.mem_iff.mp hm))
      rw [getElem?_foldl_stepFeature_not_mem result order feats j hnotmem,
        List.getElem?_eq_none (Nat.le_of_not_lt hj)]
      rfl

theorem keys_map_prim (l : List (String × Scalar)) :
    keys (l.map (fun kv => (kv.1, Json.prim kv.2))) = keys l := by
  unfold keys
  rw [List.map_map]
  exact List.map_congr_left fun kv _ => rfl

theorem length_enrichExpected (result : Nat → FetchResult) :
    ∀ (i0 : Nat) (feats : List Feature),
      (enrichExpected result i0 feats).length = feats.length := by
  intro i0 feats
  induction feats generalizing i0 with
  | nil => rfl
  | cons f fs ih => simp [enrichExpected, ih]

theorem featTransform_geometry (result : Nat → FetchResult) (i : Nat) (f : Feature) :
    (featTransform result i f).geometry = f.geometry := by
  rcases hres : result i with body | _ | _
  · by_cases ht : body.truthy <;> simp [featTransform, hres, ht, mergeFlat]
  · simp [featTransform, hres]
  · simp [featTransform, hres]

theorem featTransform_props (result : Nat → FetchResult) (i : Nat) (f : Feature) :
    ∀ kv ∈ f.properties,
      kv ∈ (featTransform result i f).properties ∨ kv.1 ∈ mergedKeys result i := by
  intro kv hkv
  rcases hres : result i with body | _ | _
  · by_cases ht : body.truthy
    · simp only [featTransform, mergedKeys, hres, ht, if_true]
      by_cases hk : kv.1 ∈ keys (flatten_json body)
      · exact Or.inr hk
      · left
        rcases kv with ⟨k, v⟩
        refine mem_dictUpdate_of_not_key hkv ?_
        rwa [keys_map_prim]
    · simp only [featTransform, hres, ht, if_false]
      exact Or.inl hkv
  · simp only [featTransform, hres]
    exact Or.inl hkv
  · simp only [featTransform, hres]
    exact Or.inl hkv

theorem enrichExpected_id (result : Nat → FetchResult)
    (hNA : ∀ i, result i = .notAvailable) :
    ∀ (i0 : Nat) (feats : List Feature), enrichExpected result i0 feats = feats := by
  intro i0 feats
  induction feats generalizing i0 with
  | nil => rfl
  | cons f fs ih =>
    show featTransform result i0 f :: enrichExpected result (i0 + 1) fs = f :: fs
    rw [ih (i0 + 1)]
    simp [featTransform, hNA i0]

theorem le_rnEven (x : Rat) : ⌊x⌋ ≤ rnEven x := by
  unfold rnEven
  split_ifs <;> omega

theorem rnEven_le (x : Rat) : rnEven x ≤ ⌊x⌋ + 1 := by
  unfold rnEven
  split_ifs <;> omega

theorem rnEven_intCast (n : Int) : rnEven (n : Rat) = n := by
  unfold rnEven
  rw [Int.floor_intCast]
  rw [if_pos (by norm_num)]

theorem rnEven_mono {x y : Rat} (hxy : x ≤ y) : rnEven x ≤ rnEven y := by
  rcases lt_or_le ⌊x⌋ ⌊y⌋ with hf | hf
  · calc rnEven x ≤ ⌊x⌋ + 1 := rnEven_le x
    _ ≤ ⌊y⌋ := by omega
    _ ≤ rnEven y := le_rnEven y
  · have hfe : ⌊x⌋ = ⌊y⌋ := le_antisymm (Int.floor_mono hxy) hf
    unfold rnEven
    rw [hfe]
    split_ifs <;> first | omega | linarith

theorem roundD_zero : roundD 0 = 0 := by simp [roundD]

theorem roundD_pos_eq {q : Rat} (h : 0 < q) :
    roundD q = (rnEven (q / 2 ^ qexp q) : Rat) * 2 ^ qexp q := by
  unfold roundD
  rw [if_neg (ne_of_gt h), if_pos h]

theorem roundD_nonneg {q : Rat} (h : 0 ≤ q) : 0 ≤ roundD q := by
  rcases eq_or_lt_of_le h with h0 | hq
  · rw [← h0, roundD_zero]
  · rw [roundD_pos_eq hq]
    have hx : (0:Rat) ≤ q / 2 ^ qexp q := by positivity
    have h1 : (0:Int) ≤ ⌊q / 2 ^ qexp q⌋ := Int.floor_nonneg.mpr hx
    have h2 : (0:Int) ≤ rnEven (q / 2 ^ qexp q) := le_trans h1 (le_rnEven _)
    have h3 : (0:Rat) ≤ (rnEven (q / 2 ^ qexp q) : Rat) := by exact_mod_cast h2
    exact mul_nonneg h3 (by positivity)

theorem log2_eq {q : Rat} (E : Int) (hq : 0 < q)
    (h1 : (2:Rat)^E ≤ q) (h2 : q < (2:Rat)^(E+1)) : Int.log 2 q = E := by
  have ha := Int.zpow_log_le_self (b := 2) (r := q) (by norm_num) hq
  have hb := Int.lt_zpow_succ_log_self (b := 2) (by norm_num) q
  have h3 : (2:Rat)^(Int.log 2 q) < (2:Rat)^(E+1) := lt_of_le_of_lt ha h2
  have h4 : (2:Rat)^E < (2:Rat)^(Int.log 2 q + 1) := lt_of_le_of_lt h1 hb
  have h5 : Int.log 2 q < E + 1 := by
    by_contra hc
    push_neg at hc
    exact absurd (zpow_le_zpow_right₀ (by norm_num) hc) (not_le.mpr h3)
  have h6 : E < Int.log 2 q + 1 := by
    by_contra hc
    push_neg at hc
    exact absurd (zpow_le_zpow_right₀ (by norm_num) hc) (not_le.mpr h4)
  omega

theorem neg1074_le_qexp (q : Rat) : -1074 ≤ qexp q := le_max_right _ _

theorem cast_pow53 : (((2:Int)^53 : Int) : Rat) = (2:Rat) ^ (53:Int) := by norm_num

theorem cast_pow52 : (((2:Int)^52 : Int) : Rat) = (2:Rat) ^ (52:Int) := by norm_num

theorem x_lt_pow53 {q : Rat} (_hq : 0 < q) : q / 2 ^ qexp q < (2:Rat) ^ (53:Int) := by
  have hlog := Int.lt_zpow_succ_log_self (b := 2) (by norm_num) q
  have hle : Int.log 2 q + 1 ≤ qexp q + 53 := by
    have := le_max_left (Int.log 2 q - 52) (-1074 : Int)
    unfold qexp
    omega
  have hq2 : q < (2:Rat) ^ (qexp q + 53) :=
    lt_of_lt_of_le hlog (zpow_le_zpow_right₀ (by norm_num) hle)
  rw [div_lt_iff₀ (by positivity), ← zpow_add₀ (by norm_num : (2:Rat) ≠ 0)]
  rw [add_comm]
  exact hq2

theorem rnEven_le_pow53 {q : Rat} (hq : 0 < q) :
    rnEven (q / 2 ^ qexp q) ≤ 2 ^ 53 := by
  have hx := x_lt_pow53 hq
  have hfl : ⌊q / 2 ^ qexp q⌋ < (2:Int)^53 := by
    rw [Int.floor_lt, cast_pow53]
    exact hx
  calc rnEven (q / 2 ^ qexp q) ≤ ⌊q / 2 ^ qexp q⌋ + 1 := rnEven_le _
  _ ≤ 2 ^ 53 := by omega

theorem roundD_le_pow {q : Rat} (hq : 0 < q) : roundD q ≤ 2 ^ (qexp q + 53) := by
  rw [roundD_pos_eq hq]
  have h1 : ((rnEven (q / 2 ^ qexp q) : Int) : Rat) ≤ (((2:Int)^53 : Int) : Rat) := by
    exact_mod_cast rnEven_le_pow53 hq
  calc (rnEven (q / 2 ^ qexp q) : Rat) * 2 ^ qexp q
      ≤ (((2:Int)^53 : Int) : Rat) * 2 ^ qexp q :=
        mul_le_mul_of_nonneg_right h1 (by positivity)
  _ = 2 ^ (qexp q + 53) := by
        rw [cast_pow53, ← zpow_add₀ (by norm_num : (2:Rat) ≠ 0), add_comm]

theorem pow_log_le_roundD {q : Rat} (hq : 0 < q)
    (hnorm : qexp q = Int.log 2 q - 52) : (2:Rat) ^ (Int.log 2 q) ≤ roundD q := by
  rw [roundD_pos_eq hq]
  have hself := Int.zpow_log_le_self (b := 2) (r := q) (by norm_num) hq
  have hx : (2:Rat) ^ (52:Int) ≤ q / 2 ^ qexp q := by
    rw [le_div_iff₀ (by positivity), ← zpow_add₀ (by norm_num : (2:Rat) ≠ 0), hnorm]
    have h52 : (52:Int) + (Int.log 2 q - 52) = Int.log 2 q := by omega
    rw [h52]
    exact hself
  have hfl : (2:Int)^52 ≤ ⌊q / 2 ^ qexp q⌋ := by
    rw [Int.le_floor, cast_pow52]
    exact hx
  have h2 : (((2:Int)^52 : Int) : Rat) ≤ (rnEven (q / 2 ^ qexp q) : Rat) := by
    exact_mod_cast le_trans hfl (le_rnEven _)
  calc (2:Rat) ^ (Int.log 2 q) = (((2:Int)^52 : Int) : Rat) * 2 ^ qexp q := by
        rw [cast_pow52, ← zpow_add₀ (by norm_num : (2:Rat) ≠ 0), hnorm]
        congr 1
        omega
  _ ≤ (rnEven (q / 2 ^ qexp q) : Rat) * 2 ^ qexp q :=
        mul_le_mul_of_nonneg_right h2 (by positivity)

theorem roundD_mono {a b : Rat} (h0 : 0 ≤ a) (hab : a ≤ b) : roundD a ≤ roundD b := by
  rcases eq_or_lt_of_le h0 with ha0 | ha
  · rw [← ha0, roundD_zero]
    exact roundD_nonneg (le_trans h0 hab)
  · have hb : 0 < b := lt_of_lt_of_le ha hab
    have hlog : Int.log 2 a ≤ Int.log 2 b := Int.log_mono_right ha hab
    have hg : qexp a ≤ qexp b := max_le_max (by omega) le_rfl
    rcases eq_or_lt_of_le hg with hge | hglt
    · rw [roundD_pos_eq ha, roundD_pos_eq hb, hge]
      have hx : a / 2 ^ qexp b ≤ b / 2 ^ qexp b :=
        (div_le_div_iff_of_pos_right (by positivity)).mpr hab
      have hr := rnEven_mono hx
      exact mul_le_mul_of_nonneg_right (by exact_mod_cast hr) (by positivity)
    · have hbnorm : qexp b = Int.log 2 b - 52 := by
        have h74 := neg1074_le_qexp a
        rcases max_cases (Int.log 2 b - 52) (-1074 : Int) with ⟨h1, _⟩ | ⟨h1, _⟩
        · exact h1
        · unfold qexp at hglt ⊢
          omega
      calc roundD a ≤ 2 ^ (qexp a + 53) := roundD_le_pow ha
      _ ≤ (2:Rat) ^ (Int.log 2 b) := by
          refine zpow_le_zpow_right₀ (by norm_num) ?_
          omega
      _ ≤ roundD b := pow_log_le_roundD hb hbnorm

theorem roundD_self_of_dyadic {d : Rat} (hd : 0 < d) (k : Int)
    (hk : d = (k:Rat) * 2 ^ qexp d) : roundD d = d := by
  rw [roundD_pos_eq hd]
  have hx : d / 2 ^ qexp d = (k : Rat) := by
    rw [div_eq_iff (by positivity : ((2:Rat) ^ qexp d) ≠ 0)]
    exact hk
  rw [hx, rnEven_intCast]
  exact hk.symm

theorem roundD_dyadic_fix (m g : Int) (hm : 0 < m) (hm53 : m ≤ 2^53)
    (hg : -1074 ≤ g) : roundD ((m:Rat) * 2 ^ g) = (m:Rat) * 2 ^ g := by
  have hmq : (0:Rat) < (m:Rat) := by exact_mod_cast hm
  set d : Rat := (m:Rat) * 2 ^ g with hd
  have hdpos : 0 < d := by positivity
  rcases eq_or_lt_of_le hm53 with hmeq | hmlt
  · have hdval : d = (2:Rat) ^ (g + 53) := by
      rw [hd, hmeq, cast_pow53, ← zpow_add₀ (by norm_num : (2:Rat) ≠ 0), add_comm]
    have hlogd : Int.log 2 d = g + 53 := by
      rw [hdval]
      exact Int.log_zpow (by norm_num) _
    have hqd : qexp d = g + 1 := by
      unfold qexp
      rw [hlogd, max_eq_left (by omega)]
      omega
    refine roundD_self_of_dyadic hdpos (2^52) ?_
    rw [hqd, hdval, cast_pow52, ← zpow_add₀ (by norm_num : (2:Rat) ≠ 0)]
    congr 1
    omega
  · have h1 : ((m:Int):Rat) < (((2:Int)^53 : Int):Rat) := by exact_mod_cast hmlt
    have hdlt : d < (2:Rat) ^ (g + 53) := by
      rw [hd]
      calc (m:Rat) * 2 ^ g < (((2:Int)^53:Int):Rat) * 2 ^ g :=
            mul_lt_mul_of_pos_right h1 (by positivity)
      _ = 2 ^ (g + 53) := by
            rw [cast_pow53, ← zpow_add₀ (by norm_num : (2:Rat) ≠ 0), add_comm]
    have hdge : (2:Rat) ^ g ≤ d := by
      rw [hd]
      have hm1 : (1:Rat) ≤ (m:Rat) := by exact_mod_cast hm
      calc (2:Rat) ^ g = 1 * 2 ^ g := (one_mul _).symm
      _ ≤ (m:Rat) * 2 ^ g := mul_le_mul_of_nonneg_right hm1 (by positivity)
    have hlogle : Int.log 2 d < g + 53 :=
      (Int.lt_zpow_iff_log_lt (by norm_num) hdpos).mp hdlt
    have hlogge : g ≤ Int.log 2 d :=
      (Int.zpow_le_iff_le_log (by norm_num) hdpos).mp hdge
    have hqdle : qexp d ≤ g := max_le (by omega) (by omega)
    have hqd74 : -1074 ≤ qexp d := neg1074_le_qexp _
    refine roundD_self_of_dyadic hdpos (m * 2 ^ (g - qexp d).toNat) ?_
    nth_rewrite 1 [hd]
    push_cast
    rw [← zpow_natCast (2:Rat) (g - qexp d).toNat,
      Int.toNat_of_nonneg (by omega : (0:Int) ≤ g - qexp d), mul_assoc,
      ← zpow_add₀ (by norm_num : (2:Rat) ≠ 0)]
    have hge : g - qexp d + qexp d = g := by omega
    rw [hge]

theorem roundD_idem {q : Rat} (h : 0 ≤ q) : roundD (roundD q) = roundD q := by
  rcases eq_or_lt_of_le h with h0 | hq
  · rw [← h0, roundD_zero, roundD_zero]
  · have hrw := roundD_pos_eq hq
    have hm0 : (0:Int) ≤ rnEven (q / 2 ^ qexp q) := by
      have hx : (0:Rat) ≤ q / 2 ^ qexp q := by positivity
      exact le_trans (Int.floor_nonneg.mpr hx) (le_rnEven _)
    rcases eq_or_lt_of_le hm0 with hm00 | hmpos
    · rw [hrw, ← hm00]
      simp [roundD_zero]
    · rw [hrw]
      exact roundD_dyadic_fix _ _ hmpos (rnEven_le_pow53 hq) (neg1074_le_qexp q)

theorem rnEven_eq_of_near {x : Rat} (m : Int)
    (h1 : (m:Rat) - 1/2 < x) (h2 : x < (m:Rat) + 1/2) : rnEven x = m := by
  rcases le_or_lt (m:Rat) x with hmx | hmx
  · have hf : ⌊x⌋ = m := Int.floor_eq_iff.mpr ⟨hmx, by linarith⟩
    unfold rnEven
    rw [hf, if_pos (by linarith)]
  · have hf : ⌊x⌋ = m - 1 := Int.floor_eq_iff.mpr ⟨by push_cast; linarith, by push_cast; linarith⟩
    unfold rnEven
    rw [hf, if_neg (by push_cast; linarith), if_pos (by push_cast; linarith)]
    omega

theorem rnEven_eq_of_tie {x : Rat} (m : Int)
    (hx : x = (m:Rat) - 1/2) (hm : m % 2 = 0) : rnEven x = m := by
  have hf : ⌊x⌋ = m - 1 := Int.floor_eq_iff.mpr ⟨by push_cast; linarith, by push_cast; linarith⟩
  unfold rnEven
  rw [hf]
  have hr : x - ((m - 1 : Int):Rat) = 1/2 := by push_cast; linarith
  rw [if_neg (by rw [hr]; norm_num), if_neg (by rw [hr]; norm_num), if_neg (by omega)]
  omega

theorem roundD_eval {q : Rat} (d : Rat) (E m : Int) (hq : 0 < q)
    (hE1 : (2:Rat)^E ≤ q) (hE2 : q < (2:Rat)^(E+1)) (hEn : -1022 ≤ E)
    (hm1 : (m:Rat) - 1/2 < q / 2^(E - 52)) (hm2 : q / 2^(E-52) < (m:Rat) + 1/2)
    (hd : (m:Rat) * 2^(E - 52) = d) : roundD q = d := by
  have hlog : Int.log 2 q = E := log2_eq E hq hE1 hE2
  have hqe : qexp q = E - 52 := by
    unfold qexp
    rw [hlog, max_eq_left (by omega)]
  rw [roundD_pos_eq hq, hqe, rnEven_eq_of_near m hm1 hm2, hd]

theorem roundD_eval_tie {q : Rat} (d : Rat) (E m : Int) (hq : 0 < q)
    (hE1 : (2:Rat)^E ≤ q) (hE2 : q < (2:Rat)^(E+1)) (hEn : -1022 ≤ E)
    (hm1 : q / 2^(E - 52) = (m:Rat) - 1/2) (hm : m % 2 = 0)
    (hd : (m:Rat) * 2^(E - 52) = d) : roundD q = d := by
  have hlog : Int.log 2 q = E := log2_eq E hq hE1 hE2
  have hqe : qexp q = E - 52 := by
    unfold qexp
    rw [hlog, max_eq_left (by omega)]
  rw [roundD_pos_eq hq, hqe, rnEven_eq_of_tie m hm1 hm, hd]

theorem sumD_nonneg {inc : Rat} (hinc : 0 ≤ inc) : ∀ k, 0 ≤ sumD inc k
  | 0 => le_refl 0
  | k + 1 => roundD_nonneg (add_nonneg (sumD_nonneg hinc k) hinc)

theorem sumD_roundD {inc : Rat} (hinc : 0 ≤ inc) :
    ∀ k, roundD (sumD inc k) = sumD inc k
  | 0 => roundD_zero
  | k + 1 => roundD_idem (add_nonneg (sumD_nonneg hinc k) hinc)

theorem sumD_le_succ {inc : Rat} (hinc : 0 ≤ inc) (k : Nat) :
    sumD inc k ≤ sumD inc (k + 1) := by
  calc sumD inc k = roundD (sumD inc k) := (sumD_roundD hinc k).symm
  _ ≤ roundD (sumD inc k + inc) :=
      roundD_mono (sumD_nonneg hinc k) (le_add_of_nonneg_right hinc)
  _ = sumD inc (k + 1) := rfl

theorem sumD_mono {inc : Rat} (hinc : 0 ≤ inc) {k k' : Nat} (h : k ≤ k') :
    sumD inc k ≤ sumD inc k' := by
  induction k' with
  | zero =>
    have hk : k = 0 := by omega
    rw [hk]
  | succ k' ih =>
    rcases Nat.lt_or_ge k (k' + 1) with hlt | hge
    · exact le_trans (ih (by omega)) (sumD_le_succ hinc k')
    · have hk : k = k' + 1 := by omega
      rw [hk]

theorem reportAtD_nonneg {inc : Rat} (hinc : 0 ≤ inc) (k : Nat) :
    0 ≤ reportAtD inc k :=
  le_min
    (Int.floor_nonneg.mpr
      (roundD_nonneg (mul_nonneg (sumD_nonneg hinc k) (by norm_num))))
    (by norm_num)

theorem reportAtD_le_100 (inc : Rat) (k : Nat) : reportAtD inc k ≤ 100 :=
  min_le_right _ _

theorem reportAtD_mono {inc : Rat} (hinc : 0 ≤ inc) {k k' : Nat} (h : k ≤ k') :
    reportAtD inc k ≤ reportAtD inc k' := by
  refine min_le_min (Int.floor_le_floor ?_) le_rfl
  exact roundD_mono (mul_nonneg (sumD_nonneg hinc k) (by norm_num))
    (mul_le_mul_of_nonneg_right (sumD_mono hinc h) (by norm_num))

theorem pairwise_reportsD {inc : Rat} (hinc : 0 ≤ inc) (n : Nat) :
    (0 :: ((List.range n).map (fun j => reportAtD inc (j + 1)) ++ [100])).Pairwise
      (· ≤ ·) := by
  refine List.pairwise_cons.mpr ⟨?_, ?_⟩
  · intro x hx
    rcases List.mem_append.mp hx with hm | hm
    · rcases List.mem_map.mp hm with ⟨j, _, rfl⟩
      exact reportAtD_nonneg hinc (j + 1)
    · rw [List.mem_singleton.mp hm]
      norm_num
  · refine List.pairwise_append.mpr ⟨?_, ?_, ?_⟩
    · rw [List.pairwise_map]
      refine List.Pairwise.imp ?_ (List.pairwise_lt_range n)
      intro a b hab
      exact reportAtD_mono hinc (by omega)
    · simp
    · intro x hx y hy
      rcases List.mem_map.mp hx with ⟨j, _, rfl⟩
      rw [List.mem_singleton.mp hy]
      exact reportAtD_le_100 inc (j + 1)

-- n = 3 concrete evaluations (values cross-checked against CPython binary64)
theorem eval_divD_1_3 : divD 1 3 = 6004799503160661 / 2 ^ 54 :=
  roundD_eval (6004799503160661 / 2 ^ 54) (-2) 6004799503160661
    (by norm_num) (by norm_num) (by norm_num) (by norm_num)
    (by norm_num) (by norm_num) (by norm_num)

theorem eval_addD_0 : addD 0 (6004799503160661 / 2 ^ 54) = 6004799503160661 / 2 ^ 54 :=
  roundD_eval (6004799503160661 / 2 ^ 54) (-2) 6004799503160661
    (by norm_num) (by norm_num) (by norm_num) (by norm_num)
    (by norm_num) (by norm_num) (by norm_num)

theorem eval_mulD_1 :
    mulD (6004799503160661 / 2 ^ 54) 100 = 4691249611844266 / 2 ^ 47 :=
  roundD_eval (4691249611844266 / 2 ^ 47) 5 4691249611844266
    (by norm_num) (by norm_num) (by norm_num) (by norm_num)
    (by norm_num) (by norm_num) (by norm_num)

theorem eval_addD_2 :
    addD (6004799503160661 / 2 ^ 54) (6004799503160661 / 2 ^ 54) =
      6004799503160661 / 2 ^ 53 :=
  roundD_eval (6004799503160661 / 2 ^ 53) (-1) 6004799503160661
    (by norm_num) (by norm_num) (by norm_num) (by norm_num)
    (by norm_num) (by norm_num) (by norm_num)

theorem eval_mulD_2 :
    mulD (6004799503160661 / 2 ^ 53) 100 = 4691249611844266 / 2 ^ 46 :=
  roundD_eval (4691249611844266 / 2 ^ 46) 6 4691249611844266
    (by norm_num) (by norm_num) (by norm_num) (by norm_num)
    (by norm_num) (by norm_num) (by norm_num)

theorem eval_addD_3 :
    addD (6004799503160661 / 2 ^ 53) (6004799503160661 / 2 ^ 54) = 1 :=
  roundD_eval_tie 1 (-1) 9007199254740992
    (by norm_num) (by norm_num) (by norm_num) (by norm_num)
    (by norm_num) (by norm_num) (by norm_num)

theorem eval_mulD_3 : mulD 1 100 = 100 :=
  roundD_eval 100 6 7036874417766400
    (by norm_num) (by norm_num) (by norm_num) (by norm_num)
    (by norm_num) (by norm_num) (by norm_num)

theorem min_floor_100_eq {q : Rat} {z : Int} (hz : z ≤ 100) (h1 : (z : Rat) ≤ q)
    (h2 : q < z + 1) : min (Int.floor q) 100 = z := by
  rw [Int.floor_eq_iff.mpr ⟨h1, h2⟩]
  exact min_eq_left hz

theorem le_floor_100 {q : Rat} (h : (100 : Rat) ≤ q) : (100 : Int) ≤ Int.floor q :=
  Int.le_floor.mpr (by exact_mod_cast h)

/-- Binary64 evaluations for a six-feature run (each value cross-checked
against a real CPython float run). -/
theorem n6_inc : divD 1 6 = 6004799503160661 / 2 ^ 55 :=
  roundD_eval (6004799503160661 / 2 ^ 55) (-3) 6004799503160661
    (by norm_num) (by norm_num) (by norm_num) (by norm_num)
    (by norm_num) (by norm_num) (by norm_num)

theorem n6_pv1 : addD (0) (6004799503160661 / 2 ^ 55) = 6004799503160661 / 2 ^ 55 :=
  roundD_eval (6004799503160661 / 2 ^ 55) (-3) 6004799503160661
    (by norm_num) (by norm_num) (by norm_num) (by norm_num)
    (by norm_num) (by norm_num) (by norm_num)

theorem n6_prod1 : mulD (6004799503160661 / 2 ^ 55) 100 = 2345624805922133 / 2 ^ 47 :=
  roundD_eval (2345624805922133 / 2 ^ 47) (4) 4691249611844266
    (by norm_num) (by norm_num) (by norm_num) (by norm_num)
    (by norm_num) (by norm_num) (by norm_num)

theorem n6_pv2 : addD (6004799503160661 / 2 ^ 55) (6004799503160661 / 2 ^ 55) = 6004799503160661 / 2 ^ 54 :=
  roundD_eval (6004799503160661 / 2 ^ 54) (-2) 6004799503160661
    (by norm_num) (by norm_num) (by norm_num) (by norm_num)
    (by norm_num) (by norm_num) (by norm_num)

theorem n6_prod2 : mulD (6004799503160661 / 2 ^ 54) 100 = 2345624805922133 / 2 ^ 46 :=
  roundD_eval (2345624805922133 / 2 ^ 46) (5) 4691249611844266
    (by norm_num) (by norm_num) (by norm_num) (by norm_num)
    (by norm_num) (by norm_num) (by norm_num)

theorem n6_pv3 : addD (6004799503160661 / 2 ^ 54) (6004799503160661 / 2 ^ 55) = 1 / 2 :=
  roundD_eval_tie (1 / 2) (-2) 9007199254740992
    (by norm_num) (by norm_num) (by norm_num) (by norm_num)
    (by norm_num) (by norm_num) (by norm_num)

theorem n6_prod3 : mulD (1 / 2) 100 = 50 :=
  roundD_eval (50) (5) 7036874417766400
    (by norm_num) (by norm_num) (by norm_num) (by norm_num)
    (by norm_num) (by norm_num) (by norm_num)

theorem n6_pv4 : addD (1 / 2) (6004799503160661 / 2 ^ 55) = 6004799503160661 / 2 ^ 53 :=
  roundD_eval (6004799503160661 / 2 ^ 53) (-1) 6004799503160661
    (by norm_num) (by norm_num) (by norm_num) (by norm_num)
    (by norm_num) (by norm_num) (by norm_num)

theorem n6_prod4 : mulD (6004799503160661 / 2 ^ 53) 100 = 2345624805922133 / 2 ^ 45 :=
  roundD_eval (2345624805922133 / 2 ^ 45) (6) 4691249611844266
    (by norm_num) (by norm_num) (by norm_num) (by norm_num)
    (by norm_num) (by norm_num) (by norm_num)

theorem n6_pv5 : addD (6004799503160661 / 2 ^ 53) (6004799503160661 / 2 ^ 55) = 3752999689475413 / 2 ^ 52 :=
  roundD_eval (3752999689475413 / 2 ^ 52) (-1) 7505999378950826
    (by norm_num) (by norm_num) (by norm_num) (by norm_num)
    (by norm_num) (by norm_num) (by norm_num)

theorem n6_prod5 : mulD (3752999689475413 / 2 ^ 52) 100 = 5864062014805333 / 2 ^ 46 :=
  roundD_eval (5864062014805333 / 2 ^ 46) (6) 5864062014805333
    (by norm_num) (by norm_num) (by norm_num) (by norm_num)
    (by norm_num) (by norm_num) (by norm_num)

theorem n6_pv6 : addD (3752999689475413 / 2 ^ 52) (6004799503160661 / 2 ^ 55) = 9007199254740991 / 2 ^ 53 :=
  roundD_eval (9007199254740991 / 2 ^ 53) (-1) 9007199254740991
    (by norm_num) (by norm_num) (by norm_num) (by norm_num)
    (by norm_num) (by norm_num) (by norm_num)

theorem n6_prod6 : mulD (9007199254740991 / 2 ^ 53) 100 = 7036874417766399 / 2 ^ 46 :=
  roundD_eval (7036874417766399 / 2 ^ 46) (6) 7036874417766399
    (by norm_num) (by norm_num) (by norm_num) (by norm_num)
    (by norm_num) (by norm_num) (by norm_num)

/-- A six-feature all-NotAvailable run reproduces the CPython float trace
exactly: the accumulated binary64 drift makes the sixth in-loop report 99
(the accumulator is just below 1 after six additions of the float 1/6), and
only the unconditional final emission of line 82 reaches 100. -/
theorem reports_n6_match_cpython :
    (process_and_update_geojson
        [exampleFeatureA, exampleFeatureB, exampleFeatureA,
         exampleFeatureB, exampleFeatureA, exampleFeatureB]
        (fun _ => .notAvailable) [0, 1, 2, 3, 4, 5]).reports =
      [0, 16, 33, 50, 66, 83, 99, 100] := by
  rw [process_and_update_geojson]
  norm_num [processLoop]
  rw [n6_inc, n6_pv1, n6_prod1, n6_pv2, n6_prod2, n6_pv3, n6_prod3, n6_pv4,
    n6_prod4, n6_pv5, n6_prod5, n6_pv6, n6_prod6]
  exact ⟨min_floor_100_eq (by norm_num) (by norm_num) (by norm_num),
         min_floor_100_eq (by norm_num) (by norm_num) (by norm_num),
         min_floor_100_eq (by norm_num) (by norm_num) (by norm_num),
         min_floor_100_eq (by norm_num) (by norm_num) (by norm_num),
         min_floor_100_eq (by norm_num) (by norm_num) (by norm_num),
         min_floor_100_eq (by norm_num) (by norm_num) (by norm_num)⟩

/-- C1: the spec says a transport failure during a feature's fetch must be
treated as NotAvailable, siblings must keep being processed, and no
exception may reach the caller of the enrichment.  The code has no handler:
`requests.post` raising inside `fetch_data` propagates, and the
orchestrator calls the future's result method with no try/except, so the
first raising future aborts the completion loop and the exception
propagates to the caller — here, with feature 0 raising and completing
first, no sibling handling and no further progress report happens and the
run ends in an exception. -/
theorem C1_transport_failure_code_bug :
    fetch_data (fun _ => PostResult.exn) 3 = (.raised, [.request 0])
    ∧ process_and_update_geojson [exampleFeatureA, exampleFeatureB]
        (fun i => if i = 0 then .raised else .notAvailable) [0, 1] =
        ⟨[exampleFeatureA, exampleFeatureB], [0], some .fetchException⟩ :=
  ⟨rfl, by simp [process_and_update_geojson, processLoop]⟩

/-- C2: the spec says an empty input collection is handled as a no-op with
an immediately complete progress channel; the code instead raises
ZeroDivisionError at line 67 (computing 1 / total_features) before
scheduling anything — only the initial zero progress report has been
emitted. -/
theorem C2_empty_collection_code_bug (result : Nat → FetchResult)
    (order : List Nat) :
    process_and_update_geojson [] result order =
      ⟨[], [0], some .zeroDivisionError⟩ := rfl

/-- C3 counterexample: the claim says each completed task reports
min(round(progress * 100), 100).  With 3 features, after the second
completed task the binary64 accumulator holds fl(1/3)+fl(1/3), whose
float product with 100 is just below 66.667; the accumulated progress is
2/3, for which the claimed round formula gives 67, but the code computes
min(int(progress_value * 100), 100) — truncation, not rounding — and the
run's third emitted value is 66 (the full emitted list, with the exact
binary64 arithmetic, is 0, 33, 66, 100, 100, matching a real CPython
run). -/
theorem C3_truncation_counterexample :
    (process_and_update_geojson [exampleFeatureA, exampleFeatureB, exampleFeatureA]
        (fun _ => .notAvailable) [0, 1, 2]).reports = [0, 33, 66, 100, 100]
    ∧ min (round (((2 : Rat) / 3) * 100)) 100 = 67
    ∧ (66 : Int) ≠ 67 := by
  refine ⟨?_, ?_, by norm_num⟩
  · simp [process_and_update_geojson, processLoop, eval_divD_1_3, eval_addD_0,
      eval_mulD_1, eval_addD_2, eval_mulD_2, eval_addD_3, eval_mulD_3]
    exact ⟨min_floor_100_eq (by norm_num) (by norm_num) (by norm_num),
           min_floor_100_eq (by norm_num) (by norm_num) (by norm_num)⟩
  · have h : round (((2 : Rat) / 3) * 100) = 67 := by
      rw [round_eq]
      exact Int.floor_eq_iff.mpr (by norm_num)
    rw [h]
    norm_num

/-- C3 amended: after each completed task, regardless of outcome, the
orchestrator adds the float increment fl(1/total) to the float progress
accumulator and reports min(int(progress * 100), 100) — Python int()
truncates (equivalently, floors the nonnegative progress) rather than
rounds — and the final report is exactly 100 because line 82 emits 100
unconditionally after the loop.  The reports of a run over a nonempty
collection whose tasks all complete are exactly the initial 0, then
min(int(pv_k * 100), 100) for k from 1 to n — where pv_k is the binary64
sum of k copies of fl(1/n) and the product with 100 is binary64 as well —
then the final 100. -/
theorem C3_progress_truncation_amended (feats : List Feature)
    (result : Nat → FetchResult) (order : List Nat) (hn : feats.length ≠ 0)
    (hlen : order.length = feats.length)
    (hok : ∀ i ∈ order, result i ≠ .raised) :
    (process_and_update_geojson feats result order).reports =
      0 :: ((List.range feats.length).map
          (fun j => reportAtD (divD 1 (feats.length : Rat)) (j + 1))
        ++ [100]) :=
  (enrich_reports feats result order hn hlen hok).1

/-- Witness for the amended C3, at a singleton collection. -/
theorem C3_progress_truncation_amended_witness :
    (process_and_update_geojson [exampleFeatureA] (fun _ => .notAvailable)
        [0]).reports =
      0 :: ((List.range 1).map
          (fun j => reportAtD (divD 1 (([exampleFeatureA].length : Nat) : Rat)) (j + 1))
        ++ [100]) :=
  C3_progress_truncation_amended [exampleFeatureA] (fun _ => .notAvailable) [0]
    (by norm_num) (by norm_num) (by decide)

/-- C4 counterexample: the claim says every completed result other than
NotAvailable is flattened and merged.  A 200 response whose decoded body is
the falsy scalar 0 is not NotAvailable, and merging its flattening (the
empty-string key mapped to 0) would add a key to the feature's properties
(third conjunct) — but the code's if-result guard is false for 0, so the
feature is left unchanged (first conjunct). -/
theorem C4_falsy_result_counterexample :
    (process_and_update_geojson [exampleFeatureA]
        (fun _ => .json (Json.prim (Scalar.int 0))) [0]).features =
        [exampleFeatureA]
    ∧ FetchResult.json (Json.prim (Scalar.int 0)) ≠ FetchResult.notAvailable
    ∧ dictUpdate exampleFeatureA.properties
        ((flatten_json (Json.prim (Scalar.int 0))).map
          (fun kv => (kv.1, Json.prim kv.2))) ≠ exampleFeatureA.properties := by
  refine ⟨?_, by decide, by decide⟩
  simp [process_and_update_geojson, processLoop, Json.truthy, Scalar.truthy]

/-- C4 amended: the orchestrator flattens and merges a completed result
into its feature's properties (overwriting colliding keys) iff the result
is truthy under Python truthiness — NotAvailable (None) and falsy decoded
bodies (empty object, empty array, zero, empty string, false, null) all
skip the merge.  For an empty-object body the skip is unobservable, since
merging its (empty) flattening changes nothing. -/
theorem C4_merge_iff_truthy_amended (feats : List Feature)
    (result : Nat → FetchResult) (order : List Nat)
    (hperm : order.Perm (List.range feats.length))
    (hok : ∀ i ∈ order, result i ≠ .raised) :
    (process_and_update_geojson feats result order).features =
        enrichExpected result 0 feats
    ∧ ∀ f : Feature, mergeFlat (Json.obj .nil) f = f :=
  ⟨enrich_features_eq feats result order hperm hok, fun _ => rfl⟩

/-- Witness for the amended C4: a singleton run with a truthy decoded
body. -/
theorem C4_merge_iff_truthy_amended_witness :
    (process_and_update_geojson [exampleFeatureA]
        (fun _ => .json (Json.obj (.cons "k" (Json.prim (Scalar.int 5)) .nil)))
        [0]).features =
        enrichExpected (fun _ => .json (Json.obj (.cons "k" (Json.prim (Scalar.int 5)) .nil)))
          0 [exampleFeatureA]
    ∧ ∀ f : Feature, mergeFlat (Json.obj .nil) f = f :=
  C4_merge_iff_truthy_amended [exampleFeatureA]
    (fun _ => .json (Json.obj (.cons "k" (Json.prim (Scalar.int 5)) .nil))) [0]
    (by decide) (by decide)

/-- C7: for a nonempty collection and any completion order of the n tasks
(each completing with a result rather than a raised transport exception),
the emitted progress sequence is non-decreasing, every emitted value is at
most 100, and the final emitted value is exactly 100. -/
theorem C7_progress_monotone_bounded_final (feats : List Feature)
    (result : Nat → FetchResult) (order : List Nat) (hn : 1 ≤ feats.length)
    (hperm : order.Perm (List.range feats.length))
    (hok : ∀ i ∈ order, result i ≠ .raised) :
    (process_and_update_geojson feats result order).reports.Pairwise (· ≤ ·)
    ∧ (∀ r ∈ (process_and_update_geojson feats result order).reports, r ≤ 100)
    ∧ (process_and_update_geojson feats result order).reports.getLast? =
        some 100 := by
  have hlen : order.length = feats.length := by
    rw [hperm.length_eq, List.length_range]
  have hinc : (0 : Rat) ≤ divD 1 (feats.length : Rat) :=
    roundD_nonneg (by positivity)
  rcases enrich_reports feats result order (by omega) hlen hok with ⟨hr, _⟩
  rw [hr]
  refine ⟨pairwise_reportsD hinc feats.length, ?_, ?_⟩
  · intro r hrm
    rcases List.mem_cons.mp hrm with rfl | hm
    · norm_num
    rcases List.mem_append.mp hm with hm2 | hm2
    · rcases List.mem_map.mp hm2 with ⟨j, _, rfl⟩
      exact reportAtD_le_100 _ _
    · rw [List.mem_singleton.mp hm2]
  · rw [← List.cons_append, List.getLast?_concat]

/-- Witness for C7, at a singleton collection. -/
theorem C7_progress_monotone_bounded_final_witness :
    (process_and_update_geojson [exampleFeatureA] (fun _ => .notAvailable)
        [0]).reports.Pairwise (· ≤ ·)
    ∧ (∀ r ∈ (process_and_update_geojson [exampleFeatureA]
        (fun _ => .notAvailable) [0]).reports, r ≤ 100)
    ∧ (process_and_update_geojson [exampleFeatureA] (fun _ => .notAvailable)
        [0]).reports.getLast? = some 100 :=
  C7_progress_monotone_bounded_final [exampleFeatureA] (fun _ => .notAvailable)
    [0] (by norm_num) (by decide) (by decide)

/-- C8: for any run whose tasks all complete, the returned collection has
exactly as many features as the input, in the same order; each output
feature's geometry is identical to its input counterpart's; and every
original property entry is still present unless its key collides with a
key of the flattened fetched data merged into that feature. -/
theorem C8_features_preserved (feats : List Feature) (result : Nat → FetchResult)
    (order : List Nat) (hperm : order.Perm (List.range feats.length))
    (hok : ∀ i ∈ order, result i ≠ .raised) :
    (process_and_update_geojson feats result order).features.length = feats.length
    ∧ ∀ j, j < feats.length →
        ∃ fin fout, feats[j]? = some fin
          ∧ (process_and_update_geojson feats result order).features[j]? = some fout
          ∧ fout.geometry = fin.geometry
          ∧ ∀ kv ∈ fin.properties,
              kv ∈ fout.properties ∨ kv.1 ∈ mergedKeys result j := by
  have hfe := enrich_features_eq feats result order hperm hok
  constructor
  · rw [hfe, length_enrichExpected]
  · intro j hj
    rcases hq : feats[j]? with _ | fin
    · rw [List.getElem?_eq_none_iff] at hq
      omega
    · refine ⟨fin, featTransform result j fin, rfl, ?_, ?_, ?_⟩
      · rw [hfe, getElem?_enrichExpected result feats 0 j, Nat.zero_add, hq]
        rfl
      · exact featTransform_geometry result j fin
      · exact featTransform_props result j fin

/-- Witness for C8, at a singleton collection with a merging result. -/
theorem C8_features_preserved_witness :
    (process_and_update_geojson [exampleFeatureA]
        (fun _ => .json (Json.obj (.cons "k" (Json.prim (Scalar.int 5)) .nil)))
        [0]).features.length = [exampleFeatureA].length
    ∧ ∀ j, j < [exampleFeatureA].length →
        ∃ fin fout, [exampleFeatureA][j]? = some fin
          ∧ (process_and_update_geojson [exampleFeatureA]
              (fun _ => .json (Json.obj (.cons "k" (Json.prim (Scalar.int 5)) .nil)))
              [0]).features[j]? = some fout
          ∧ fout.geometry = fin.geometry
          ∧ ∀ kv ∈ fin.properties,
              kv ∈ fout.properties ∨ kv.1 ∈ mergedKeys
                (fun _ => .json (Json.obj (.cons "k" (Json.prim (Scalar.int 5)) .nil))) j :=
  C8_features_preserved [exampleFeatureA]
    (fun _ => .json (Json.obj (.cons "k" (Json.prim (Scalar.int 5)) .nil))) [0]
    (by decide) (by decide)

/-- C9: a feature whose fetch yields NotAvailable keeps its property
mapping (indeed the whole feature) entirely unchanged — no error entry, no
partial merge; and when every fetch yields NotAvailable, the run terminates
normally with the feature list unmodified while the progress reports still
end in exactly 100. -/
theorem C9_notAvailable_leaves_unchanged (feats : List Feature)
    (result : Nat → FetchResult) (order : List Nat)
    (hperm : order.Perm (List.range feats.length))
    (hok : ∀ i ∈ order, result i ≠ .raised) :
    (∀ j, result j = .notAvailable →
        (process_and_update_geojson feats result order).features[j]? = feats[j]?)
    ∧ ((∀ i, result i = .notAvailable) → 1 ≤ feats.length →
        (process_and_update_geojson feats result order).features = feats
        ∧ (process_and_update_geojson feats result order).reports.getLast? =
            some 100
        ∧ (process_and_update_geojson feats result order).error = none) := by
  have hfe := enrich_features_eq feats result order hperm hok
  constructor
  · intro j hj
    rw [hfe, getElem?_enrichExpected result feats 0 j, Nat.zero_add]
    have hf : featTransform result j = fun f => f :=
      funext fun f => by simp [featTransform, hj]
    rw [hf, Option.map_id']
  · intro hNA hn
    have hlen : order.length = feats.length := by
      rw [hperm.length_eq, List.length_range]
    rcases enrich_reports feats result order (by omega) hlen hok with ⟨hr, he⟩
    refine ⟨?_, ?_, he⟩
    · rw [hfe, enrichExpected_id result hNA 0 feats]
    · rw [hr, ← List.cons_append, List.getLast?_concat]

/-- Witness for C9: a two-feature all-NotAvailable run. -/
theorem C9_notAvailable_leaves_unchanged_witness :
    (∀ j, (fun _ : Nat => FetchResult.notAvailable) j = .notAvailable →
        (process_and_update_geojson [exampleFeatureA, exampleFeatureB]
          (fun _ => .notAvailable) [1, 0]).features[j]? =
          [exampleFeatureA, exampleFeatureB][j]?)
    ∧ ((∀ i, (fun _ : Nat => FetchResult.notAvailable) i = .notAvailable) →
        1 ≤ [exampleFeatureA, exampleFeatureB].length →
        (process_and_update_geojson [exampleFeatureA, exampleFeatureB]
          (fun _ => .notAvailable) [1, 0]).features =
          [exampleFeatureA, exampleFeatureB]
        ∧ (process_and_update_geojson [exampleFeatureA, exampleFeatureB]
            (fun _ => .notAvailable) [1, 0]).reports.getLast? = some 100
        ∧ (process_and_update_geojson [exampleFeatureA, exampleFeatureB]
            (fun _ => .notAvailable) [1, 0]).error = none) :=
  C9_notAvailable_leaves_unchanged [exampleFeatureA, exampleFeatureB]
    (fun _ => .notAvailable) [1, 0] (by decide) (by decide)

end DCStats
